import Mathlib

/-!
Shallow embedding of src/examples/sample_program.c: a pthread demo with a
shared counter incremented by three worker threads under mutex1, a fourth
thread that takes mutex1 then mutex2 and doubles the first five entries of
a shared ten-element array, and a main thread that creates the threads,
sums the array, joins everything, and sums again.

The concurrency is modelled as a small-step interleaving semantics: each
thread has a program counter; a scheduler step picks a thread and runs its
unique next atomic action.  The `counter++` of the C source is split into a
read step and a write step so that the mutual-exclusion argument is real.
-/

namespace SampleProgram

/-- Embeds `thread_data_t` (sample_program.c lines 22-25). -/
structure thread_data_t where
  id : Int
  iterations : Int
deriving DecidableEq

/-- Thread identifiers for a system with `n` counter workers: the main
thread, the counter workers (`worker_thread` instances), and the single
mutex-user thread (`mutex_user_thread`). -/
inductive Tid (n : Nat) where
  | main
  | worker (i : Fin n)
  | auser
deriving DecidableEq

/-- Program counter of a `worker_thread` instance (lines 27-45).  The loop
is tracked by the number of iterations that remain after the current one;
the `counter++` of line 32 is split into a read (`locked` to `midinc`) and
a write (`midinc` to `incr`) so nothing about atomicity is assumed.  The
reads of line 35, the sleeps and the prints touch no shared mutable state
and are merged into the adjacent transitions. -/
inductive WorkerPc where
  | rem (k : Nat)
  | locked (k : Nat)
  | midinc (k : Nat) (temp : Int)
  | incr (k : Nat)
  | done
deriving DecidableEq

/-- Program counter of `mutex_user_thread` (lines 47-67): lock mutex1,
sleep (the `usleep(10000)` of line 53, an explicit state since claims are
about it), lock mutex2, double `array[0..4]` in index order, unlock mutex2,
unlock mutex1, return. -/
inductive AUserPc where
  | start
  | asleep
  | waitB
  | writing (i : Nat)
  | relA
  | adone
deriving DecidableEq

/-- Program counter of `main` (lines 77-112): create the `n` counter
workers one by one, create the mutex-user thread, compute the initial sum
(line 97), join all threads (modelled as one wait-all step), compute the
final sum and report (lines 106-108), return 0. -/
inductive MainPc where
  | create (j : Nat)
  | computeSum1
  | waitJoin
  | computeSum2
  | finished (ret : Int)
deriving DecidableEq

/-- The shared state of the program together with every thread's program
counter.  `counter` and `array` are the globals of lines 19-20; `mutex1`
and `mutex2` record the current owner (None = unlocked).  The three
`Option Int` fields record the values printed by main: the initial sum
(line 98), the final counter (line 107) and the final sum (line 108). -/
structure SysState (n : Nat) where
  counter : Int
  array : List Int
  mutex1 : Option (Tid n)
  mutex2 : Option (Tid n)
  wpc : Fin n → WorkerPc
  apc : AUserPc
  mpc : MainPc
  initialSum : Option Int
  finalCounterOut : Option Int
  finalSum : Option Int

/-- Embeds `calculate_sum` (lines 69-75): the loop `for (i = 0; i < size;
i++) sum += arr[i]` adds up the first `size` elements; when `size <= 0`
the body never runs.  `Int.toNat` sends nonpositive sizes to 0. -/
def calculate_sum (arr : List Int) (size : Int) : Int :=
  (arr.take size.toNat).sum

/-- The initializer of `array` (line 20). -/
def initArray : List Int := [1, 2, 3, 4, 5, 6, 7, 8, 9, 10]

/-- Whether counter worker `i` has already been created by main: worker `i`
is created by the `i`-th iteration of the loop at lines 85-89, so while
main is still at `create j` only workers with index below `j` exist. -/
def createdW {n : Nat} (i : Fin n) : MainPc → Bool
  | .create j => decide ((i : Nat) < j)
  | _ => true

/-- Whether the mutex-user thread has been created (line 94): it is created
right after the worker-creation loop, before main computes the initial
sum. -/
def createdA : MainPc → Bool
  | .create _ => false
  | _ => true

/-- One atomic action of `worker_thread` number `i` (lines 27-45), `none`
when the thread is not yet created, blocked on the mutex, or finished.
From `rem (k+1)` it acquires mutex1 when free; `locked` reads `counter`;
`midinc` writes the incremented value (line 32); `incr` releases mutex1
and returns to the loop head. `rem 0` is the failing loop test: the thread
returns NULL (line 44). -/
def worker_thread_step {n : Nat} (i : Fin n) (s : SysState n) :
    Option (SysState n) :=
  if createdW i s.mpc then
    match s.wpc i with
    | .rem 0 => some { s with wpc := Function.update s.wpc i .done }
    | .rem (k+1) =>
        if s.mutex1 = none then
          some { s with mutex1 := some (.worker i),
                        wpc := Function.update s.wpc i (.locked k) }
        else none
    | .locked k =>
        some { s with wpc := Function.update s.wpc i (.midinc k s.counter) }
    | .midinc k t =>
        some { s with counter := t + 1,
                      wpc := Function.update s.wpc i (.incr k) }
    | .incr k =>
        some { s with mutex1 := none,
                      wpc := Function.update s.wpc i (.rem k) }
    | .done => none
  else none

/-- One atomic action of `mutex_user_thread` (lines 47-67): acquire mutex1
(line 51), sleep (line 53), acquire mutex2 (line 55), double
`array[0..4]` one element per step (lines 59-61, `array[i] *= 2`),
release mutex2 then mutex1 (lines 63-64), return NULL. -/
def mutex_user_thread_step {n : Nat} (s : SysState n) :
    Option (SysState n) :=
  if createdA s.mpc then
    match s.apc with
    | .start =>
        if s.mutex1 = none then
          some { s with mutex1 := some .auser, apc := .asleep }
        else none
    | .asleep => some { s with apc := .waitB }
    | .waitB =>
        if s.mutex2 = none then
          some { s with mutex2 := some .auser, apc := .writing 0 }
        else none
    | .writing i =>
        if i < 5 then
          some { s with array := s.array.set i (s.array.getD i 0 * 2),
                        apc := .writing (i+1) }
        else
          some { s with mutex2 := none, apc := .relA }
    | .relA => some { s with mutex1 := none, apc := .adone }
    | .adone => none
  else none

/-- One atomic action of `main` (lines 77-112): create the counter workers
(lines 85-89) and then the mutex-user thread (lines 92-94), compute and
record the initial sum (lines 97-98), wait for every thread to finish
(lines 101-103, one wait-all step), compute and record the final counter
and final sum (lines 106-108), and return 0 (line 111). -/
def main_step {n : Nat} (s : SysState n) : Option (SysState n) :=
  match s.mpc with
  | .create j =>
      if j < n then some { s with mpc := .create (j+1) }
      else some { s with mpc := .computeSum1 }
  | .computeSum1 =>
      some { s with initialSum := some (calculate_sum s.array 10),
                    mpc := .waitJoin }
  | .waitJoin =>
      if (∀ i, s.wpc i = WorkerPc.done) ∧ s.apc = AUserPc.adone then
        some { s with mpc := .computeSum2 }
      else none
  | .computeSum2 =>
      some { s with finalCounterOut := some s.counter,
                    finalSum := some (calculate_sum s.array 10),
                    mpc := .finished 0 }
  | .finished _ => none

/-- One atomic action of thread `t`. -/
def stepOf {n : Nat} (t : Tid n) (s : SysState n) : Option (SysState n) :=
  match t with
  | .main => main_step s
  | .worker i => worker_thread_step i s
  | .auser => mutex_user_thread_step s

/-- The interleaving step relation: some thread takes its next action. -/
def Step {n : Nat} (s s' : SysState n) : Prop :=
  ∃ t : Tid n, stepOf t s = some s'

/-- The state at the start of `main`, for a system of `n` counter workers
whose descriptors are `tds` (the code fills `thread_data[i]` at lines
86-87 and 92-93): globals as initialized at lines 16-20, every thread at
its first instruction, nothing printed yet. -/
def initState (n : Nat) (tds : Fin n → thread_data_t) : SysState n :=
  { counter := 0
    array := initArray
    mutex1 := none
    mutex2 := none
    wpc := fun i => .rem (tds i).iterations.toNat
    apc := .start
    mpc := .create 0
    initialSum := none
    finalCounterOut := none
    finalSum := none }

/-- A state is reachable when a finite interleaving of thread actions leads
to it from the initial state. -/
def Reach (n : Nat) (tds : Fin n → thread_data_t) (s : SysState n) : Prop :=
  Relation.ReflTransGen Step (initState n tds) s

/-- Runs an explicit schedule (a list of thread ids); `none` if some
scheduled thread is blocked. -/
def exec {n : Nat} : List (Tid n) → SysState n → Option (SysState n)
  | [], s => some s
  | t :: ls, s =>
      match stepOf t s with
      | some s' => exec ls s'
      | none => none

/-- A completed schedule yields a reachable state. -/
theorem exec_sound {n : Nat} {ls : List (Tid n)} {s s' : SysState n}
    (h : exec ls s = some s') : Relation.ReflTransGen Step s s' := by
  induction ls generalizing s with
  | nil =>
      simp [exec] at h
      exact h ▸ Relation.ReflTransGen.refl
  | cons t ls ih =>
      unfold exec at h
      cases hst : stepOf t s with
      | none => rw [hst] at h; exact absurd h (by simp)
      | some s₁ =>
          rw [hst] at h
          exact Relation.ReflTransGen.head ⟨t, hst⟩ (ih h)

/-- Embeds `main`'s signature (line 77): the entry point receives `argc`
and `argv` but its body never reads them; the program it starts is the
system with 3 counter workers of 5 iterations each (lines 80-94) and the
mutex-user thread. -/
def main (argc : Int) (argv : List String) : SysState 3 :=
  initState 3 (fun i => ⟨(i : Int) + 1, 5⟩)

/-- The initial state of the compiled program. -/
def progInit : SysState 3 := main 0 []

/-- The thread descriptors of the compiled program (lines 85-93). -/
def progTds : Fin 3 → thread_data_t := fun i => ⟨(i : Int) + 1, 5⟩

/-- How many increments of `counter` a worker at this program counter has
still to perform (the current iteration counts until its write step has
happened). -/
def remIncs : WorkerPc → Nat
  | .rem k => k
  | .locked k => k + 1
  | .midinc k _ => k + 1
  | .incr k => k
  | .done => 0

/-- A worker at this program counter is inside its mutex1 critical section
(lines 31-40). -/
def inCrit : WorkerPc → Prop
  | .locked _ => True
  | .midinc _ _ => True
  | .incr _ => True
  | _ => False

/-- The mutex-user thread holds mutex1 at this program counter (between
lines 51 and 64). -/
def auHolds1 : AUserPc → Prop
  | .asleep => True
  | .waitB => True
  | .writing _ => True
  | .relA => True
  | _ => False

/-- The mutex-user thread holds mutex2 at this program counter (between
lines 55 and 63). -/
def auHolds2 : AUserPc → Prop
  | .writing _ => True
  | _ => False

/-- Which thread conceptually holds mutex1, as a function of the program
counters. -/
def holds1 {n : Nat} (w : Fin n → WorkerPc) (a : AUserPc) : Tid n → Prop
  | .main => False
  | .worker i => inCrit (w i)
  | .auser => auHolds1 a

/-- Which thread conceptually holds mutex2: only the mutex-user thread in
its writing loop. -/
def holds2 {n : Nat} (a : AUserPc) : Tid n → Prop
  | .auser => auHolds2 a
  | _ => False

/-- The shared array after the first `j` elements have been doubled. -/
def dArr (j : Nat) : List Int :=
  (initArray.take j).map (fun x => x * 2) ++ initArray.drop j

/-- The exact contents of the shared array as a function of the mutex-user
thread's program counter: only its writing loop (lines 59-61) ever touches
the array. -/
def arrAt : AUserPc → List Int
  | .writing i => dArr (min i 5)
  | .relA => dArr 5
  | .adone => dArr 5
  | _ => dArr 0

/-- The global invariant of the interleaving semantics.  `sum_eq` is the
counting argument behind the no-lost-update property; `m1_iff`/`m2_iff`
tie mutex ownership to the program counters; `temp_eq` says a worker
paused between the read and the write of `counter++` has an accurate
temporary, which holds exactly because mutex1 serializes the critical
sections; `arr_eq` pins the array contents; the remaining fields track
main's phases and outputs. -/
structure Inv (n : Nat) (tds : Fin n → thread_data_t) (s : SysState n) :
    Prop where
  sum_eq : s.counter + ∑ i, (remIncs (s.wpc i) : ℤ) =
      ∑ i, ((tds i).iterations.toNat : ℤ)
  m1_iff : ∀ t, s.mutex1 = some t ↔ holds1 s.wpc s.apc t
  m2_iff : ∀ t, s.mutex2 = some t ↔ holds2 s.apc t
  temp_eq : ∀ i k t, s.wpc i = .midinc k t → t = s.counter
  arr_eq : s.array = arrAt s.apc
  pre_sum1 : ((∃ j, s.mpc = .create j) ∨ s.mpc = .computeSum1) →
      s.initialSum = none
  pre_fin : (∀ r, s.mpc ≠ .finished r) →
      s.finalCounterOut = none ∧ s.finalSum = none
  post_join : (s.mpc = .computeSum2 ∨ ∃ r, s.mpc = .finished r) →
      (∀ i, s.wpc i = .done) ∧ s.apc = .adone
  fin : ∀ r, s.mpc = .finished r →
      r = 0 ∧ s.finalCounterOut = some (∑ i, ((tds i).iterations.toNat : ℤ)) ∧
      s.finalSum = some 70
  zero_iter : ∀ i, (tds i).iterations ≤ 0 →
      s.wpc i = .rem 0 ∨ s.wpc i = .done

theorem sum_remIncs_update {n : Nat} (w : Fin n → WorkerPc) (i : Fin n)
    (a : WorkerPc) :
    (∑ j, (remIncs (Function.update w i a j) : ℤ)) =
      (∑ j, (remIncs (w j) : ℤ)) - (remIncs (w i) : ℤ) + (remIncs a : ℤ) := by
  have hfun : (fun j => (remIncs (Function.update w i a j) : ℤ)) =
      Function.update (fun j => (remIncs (w j) : ℤ)) i (remIncs a : ℤ) := by
    funext j
    by_cases hj : j = i
    · subst hj; simp
    · simp [Function.update_noteq hj]
  rw [show (∑ j, (remIncs (Function.update w i a j) : ℤ)) =
      ∑ j, Function.update (fun j => (remIncs (w j) : ℤ)) i (remIncs a : ℤ) j
      from by rw [← hfun]]
  rw [Finset.sum_update_of_mem (Finset.mem_univ i)]
  rw [Finset.sum_eq_sum_diff_singleton_add (Finset.mem_univ i)
      (fun j => (remIncs (w j) : ℤ))]
  ring

theorem dArr_write : ∀ i, i < 5 →
    (dArr i).set i ((dArr i).getD i 0 * 2) = dArr (i + 1) := by decide

theorem dArr_drop : ∀ j, j ≤ 5 → (dArr j).drop 5 = [6, 7, 8, 9, 10] := by
  decide

theorem inv_init (n : Nat) (tds : Fin n → thread_data_t) :
    Inv n tds (initState n tds) := by
  refine ⟨?_, ?_, ?_, ?_, ?_, ?_, ?_, ?_, ?_, ?_⟩
  · simp [initState, remIncs]
  · intro t; cases t <;>
      simp [initState, holds1, inCrit, auHolds1]
  · intro t; cases t <;>
      simp [initState, holds2, auHolds2]
  · intro i k t h; simp [initState] at h
  · simp [initState, arrAt, dArr, initArray]
  · intro _; rfl
  · intro _; exact ⟨rfl, rfl⟩
  · intro h; simp [initState] at h
  · intro r h; simp [initState] at h
  · intro i h
    left
    simp [initState]
    omega

theorem main_step_inv {n : Nat} {tds : Fin n → thread_data_t}
    {s s' : SysState n} (h : Inv n tds s) (hs : main_step s = some s') :
    Inv n tds s' := by
  unfold main_step at hs
  split at hs
  case _ j hm =>
    split at hs <;> obtain rfl := Option.some.inj hs
    · exact { sum_eq := h.sum_eq, m1_iff := h.m1_iff, m2_iff := h.m2_iff
              temp_eq := h.temp_eq, arr_eq := h.arr_eq
              pre_sum1 := fun _ => h.pre_sum1 (Or.inl ⟨j, hm⟩)
              pre_fin := fun _ => h.pre_fin (fun r => by rw [hm]; simp)
              post_join := fun hc => by simp at hc
              fin := fun r hr => by simp at hr
              zero_iter := h.zero_iter }
    · exact { sum_eq := h.sum_eq, m1_iff := h.m1_iff, m2_iff := h.m2_iff
              temp_eq := h.temp_eq, arr_eq := h.arr_eq
              pre_sum1 := fun _ => h.pre_sum1 (Or.inl ⟨j, hm⟩)
              pre_fin := fun _ => h.pre_fin (fun r => by rw [hm]; simp)
              post_join := fun hc => by simp at hc
              fin := fun r hr => by simp at hr
              zero_iter := h.zero_iter }
  case _ hm =>
    obtain rfl := Option.some.inj hs
    exact { sum_eq := h.sum_eq, m1_iff := h.m1_iff, m2_iff := h.m2_iff
            temp_eq := h.temp_eq, arr_eq := h.arr_eq
            pre_sum1 := fun hc => by simp at hc
            pre_fin := fun _ => h.pre_fin (fun r => by rw [hm]; simp)
            post_join := fun hc => by simp at hc
            fin := fun r hr => by simp at hr
            zero_iter := h.zero_iter }
  case _ hm =>
    split at hs
    case _ hcond =>
      obtain rfl := Option.some.inj hs
      exact { sum_eq := h.sum_eq, m1_iff := h.m1_iff, m2_iff := h.m2_iff
              temp_eq := h.temp_eq, arr_eq := h.arr_eq
              pre_sum1 := fun hc => by simp at hc
              pre_fin := fun _ => h.pre_fin (fun r => by rw [hm]; simp)
              post_join := fun _ => hcond
              fin := fun r hr => by simp at hr
              zero_iter := h.zero_iter }
    case _ => exact absurd hs (by simp)
  case _ hm =>
    obtain rfl := Option.some.inj hs
    have hpj := h.post_join (Or.inl hm)
    have hrem : ∑ i, (remIncs (s.wpc i) : ℤ) = 0 :=
      Finset.sum_eq_zero (fun i _ => by rw [hpj.1 i]; rfl)
    have hcnt : s.counter = ∑ i, ((tds i).iterations.toNat : ℤ) := by
      have := h.sum_eq; omega
    have harr : s.array = dArr 5 := by rw [h.arr_eq, hpj.2]; rfl
    exact { sum_eq := h.sum_eq, m1_iff := h.m1_iff, m2_iff := h.m2_iff
            temp_eq := h.temp_eq, arr_eq := h.arr_eq
            pre_sum1 := fun hc => by simp at hc
            pre_fin := fun hr => absurd rfl (hr 0)
            post_join := fun _ => hpj
            fin := fun r hr => by
              have hr0 : r = 0 := by
                have := (MainPc.finished.injEq 0 r).mp hr
                omega
              refine ⟨hr0, by rw [hcnt], ?_⟩
              show some (calculate_sum s.array 10) = some 70
              rw [harr]; rfl
            zero_iter := h.zero_iter }
  case _ => exact absurd hs (by simp)

theorem holds1_update_iff {n : Nat} {w : Fin n → WorkerPc} {i : Fin n}
    {b : WorkerPc} {ap : AUserPc} (hiff : inCrit b ↔ inCrit (w i))
    (t : Tid n) : holds1 (Function.update w i b) ap t ↔ holds1 w ap t := by
  cases t with
  | main => exact Iff.rfl
  | auser => exact Iff.rfl
  | worker j =>
      by_cases hj : j = i
      · subst hj; simpa [holds1] using hiff
      · simp [holds1, Function.update_noteq hj]

theorem worker_thread_step_inv {n : Nat} {tds : Fin n → thread_data_t}
    (i : Fin n) {s s' : SysState n} (h : Inv n tds s)
    (hs : worker_thread_step i s = some s') : Inv n tds s' := by
  unfold worker_thread_step at hs
  split at hs
  case _ =>
    -- facts used across cases
    have noHold : s.mutex1 = none → ∀ t, ¬ holds1 s.wpc s.apc t := by
      intro hg t ht
      have := (h.m1_iff t).mpr ht
      rw [hg] at this; exact Option.noConfusion this
    split at hs
    -- loop test fails: return NULL
    case _ hw =>
      obtain rfl := Option.some.inj hs
      refine { sum_eq := ?_, m1_iff := ?_, m2_iff := h.m2_iff
               temp_eq := ?_, arr_eq := h.arr_eq
               pre_sum1 := h.pre_sum1, pre_fin := h.pre_fin
               post_join := fun hc =>
                 absurd ((h.post_join hc).1 i) (by rw [hw]; simp)
               fin := h.fin, zero_iter := ?_ }
      · show s.counter + ∑ j, (remIncs (Function.update s.wpc i .done j) : ℤ) = _
        rw [sum_remIncs_update, hw]
        have := h.sum_eq
        simp [remIncs] at *
        omega
      · intro t
        exact (h.m1_iff t).trans
          (holds1_update_iff (by rw [hw]; exact Iff.rfl) t).symm
      · intro j k t hj
        dsimp only at hj ⊢
        by_cases hji : j = i
        · subst hji; rw [Function.update_same] at hj; exact absurd hj (by simp)
        · rw [Function.update_noteq hji] at hj; exact h.temp_eq j k t hj
      · intro j hj
        dsimp only at hj ⊢
        by_cases hji : j = i
        · subst hji; rw [Function.update_same]; exact Or.inr rfl
        · rw [Function.update_noteq hji]; exact h.zero_iter j hj
    -- acquire mutex1
    case _ k hw =>
      split at hs
      case _ hg =>
        obtain rfl := Option.some.inj hs
        refine { sum_eq := ?_, m1_iff := ?_, m2_iff := h.m2_iff
                 temp_eq := ?_, arr_eq := h.arr_eq
                 pre_sum1 := h.pre_sum1, pre_fin := h.pre_fin
                 post_join := fun hc =>
                   absurd ((h.post_join hc).1 i) (by rw [hw]; simp)
                 fin := h.fin, zero_iter := ?_ }
        · show s.counter +
              ∑ j, (remIncs (Function.update s.wpc i (.locked k) j) : ℤ) = _
          rw [sum_remIncs_update, hw]
          have := h.sum_eq
          simp [remIncs] at *
          omega
        · intro t
          constructor
          · intro ht
            obtain rfl := Option.some.inj ht
            simp [holds1, inCrit]
          · intro ht
            cases t with
            | main => exact absurd ht (by simp [holds1])
            | auser =>
                exact absurd (noHold hg .auser) (by simp [holds1]; exact ht)
            | worker j =>
                by_cases hji : j = i
                · subst hji; rfl
                · rw [show holds1 (Function.update s.wpc i (.locked k)) s.apc
                        (.worker j) = inCrit (s.wpc j) from by
                      simp [holds1, Function.update_noteq hji]] at ht
                  exact absurd (noHold hg (.worker j)) (by simp [holds1]; exact ht)
        · intro j k' t hj
          dsimp only at hj ⊢
          by_cases hji : j = i
          · subst hji; rw [Function.update_same] at hj; exact absurd hj (by simp)
          · rw [Function.update_noteq hji] at hj; exact h.temp_eq j k' t hj
        · intro j hj
          dsimp only at hj ⊢
          by_cases hji : j = i
          · subst hji
            rcases h.zero_iter _ hj with h0 | h0 <;> rw [hw] at h0 <;>
              exact absurd h0 (by simp)
          · rw [Function.update_noteq hji]; exact h.zero_iter j hj
      case _ => exact absurd hs (by simp)
    -- read counter (first half of counter++)
    case _ k hw =>
      obtain rfl := Option.some.inj hs
      refine { sum_eq := ?_, m1_iff := ?_, m2_iff := h.m2_iff
               temp_eq := ?_, arr_eq := h.arr_eq
               pre_sum1 := h.pre_sum1, pre_fin := h.pre_fin
               post_join := fun hc =>
                 absurd ((h.post_join hc).1 i) (by rw [hw]; simp)
               fin := h.fin, zero_iter := ?_ }
      · show s.counter +
            ∑ j, (remIncs (Function.update s.wpc i (.midinc k s.counter) j) : ℤ) = _
        rw [sum_remIncs_update, hw]
        have := h.sum_eq
        simp [remIncs] at *
        omega
      · intro t
        exact (h.m1_iff t).trans
          (holds1_update_iff (by rw [hw]; simp [inCrit]) t).symm
      · intro j k' t hj
        dsimp only at hj ⊢
        by_cases hji : j = i
        · subst hji
          rw [Function.update_same] at hj
          obtain ⟨-, ht⟩ := (WorkerPc.midinc.injEq _ _ _ _).mp hj.symm
          exact ht
        · rw [Function.update_noteq hji] at hj; exact h.temp_eq j k' t hj
      · intro j hj
        dsimp only at hj ⊢
        by_cases hji : j = i
        · subst hji
          rcases h.zero_iter _ hj with h0 | h0 <;> rw [hw] at h0 <;>
            exact absurd h0 (by simp)
        · rw [Function.update_noteq hji]; exact h.zero_iter j hj
    -- write counter (second half of counter++): the only counter mutation
    case _ k t0 hw =>
      obtain rfl := Option.some.inj hs
      have hti : t0 = s.counter := h.temp_eq i k t0 hw
      have hm1i : s.mutex1 = some (.worker i) :=
        (h.m1_iff (.worker i)).mpr (by rw [show holds1 s.wpc s.apc (.worker i)
          = inCrit (s.wpc i) from rfl, hw]; trivial)
      refine { sum_eq := ?_, m1_iff := ?_, m2_iff := h.m2_iff
               temp_eq := ?_, arr_eq := h.arr_eq
               pre_sum1 := h.pre_sum1, pre_fin := h.pre_fin
               post_join := fun hc =>
                 absurd ((h.post_join hc).1 i) (by rw [hw]; simp)
               fin := h.fin, zero_iter := ?_ }
      · show t0 + 1 +
            ∑ j, (remIncs (Function.update s.wpc i (.incr k) j) : ℤ) = _
        rw [sum_remIncs_update, hw]
        have := h.sum_eq
        simp [remIncs] at *
        omega
      · intro t
        exact (h.m1_iff t).trans
          (holds1_update_iff (by rw [hw]; simp [inCrit]) t).symm
      · intro j k' t hj
        dsimp only at hj ⊢
        by_cases hji : j = i
        · subst hji; rw [Function.update_same] at hj; exact absurd hj (by simp)
        · exfalso
          rw [Function.update_noteq hji] at hj
          have hm1j : s.mutex1 = some (.worker j) :=
            (h.m1_iff (.worker j)).mpr (by rw [show holds1 s.wpc s.apc (.worker j)
              = inCrit (s.wpc j) from rfl, hj]; trivial)
          rw [hm1i] at hm1j
          exact hji (Tid.worker.inj (Option.some.inj hm1j)).symm
      · intro j hj
        dsimp only at hj ⊢
        by_cases hji : j = i
        · subst hji
          rcases h.zero_iter _ hj with h0 | h0 <;> rw [hw] at h0 <;>
            exact absurd h0 (by simp)
        · rw [Function.update_noteq hji]; exact h.zero_iter j hj
    -- release mutex1, back to the loop head
    case _ k hw =>
      obtain rfl := Option.some.inj hs
      have hm1i : s.mutex1 = some (.worker i) :=
        (h.m1_iff (.worker i)).mpr (by rw [show holds1 s.wpc s.apc (.worker i)
          = inCrit (s.wpc i) from rfl, hw]; trivial)
      refine { sum_eq := ?_, m1_iff := ?_, m2_iff := h.m2_iff
               temp_eq := ?_, arr_eq := h.arr_eq
               pre_sum1 := h.pre_sum1, pre_fin := h.pre_fin
               post_join := fun hc =>
                 absurd ((h.post_join hc).1 i) (by rw [hw]; simp)
               fin := h.fin, zero_iter := ?_ }
      · show s.counter +
            ∑ j, (remIncs (Function.update s.wpc i (.rem k) j) : ℤ) = _
        rw [sum_remIncs_update, hw]
        have := h.sum_eq
        simp [remIncs] at *
        omega
      · intro t
        constructor
        · intro ht; exact Option.noConfusion ht
        · intro ht
          exfalso
          cases t with
          | main => simp [holds1] at ht
          | auser =>
              have := (h.m1_iff .auser).mpr ht
              rw [hm1i] at this
              exact Tid.noConfusion (Option.some.inj this)
          | worker j =>
              by_cases hji : j = i
              · dsimp only at ht
                rw [hji] at ht
                simp only [holds1] at ht
                rw [Function.update_same] at ht
                exact ht
              · dsimp only at ht
                simp only [holds1] at ht
                rw [Function.update_noteq hji] at ht
                have := (h.m1_iff (.worker j)).mpr ht
                rw [hm1i] at this
                exact hji (Tid.worker.inj (Option.some.inj this)).symm
      · intro j k' t hj
        dsimp only at hj ⊢
        by_cases hji : j = i
        · subst hji; rw [Function.update_same] at hj; exact absurd hj (by simp)
        · rw [Function.update_noteq hji] at hj; exact h.temp_eq j k' t hj
      · intro j hj
        dsimp only at hj ⊢
        by_cases hji : j = i
        · subst hji
          rcases h.zero_iter _ hj with h0 | h0 <;> rw [hw] at h0 <;>
            exact absurd h0 (by simp)
        · rw [Function.update_noteq hji]; exact h.zero_iter j hj
    -- worker already returned
    case _ => exact absurd hs (by simp)
  case _ => exact absurd hs (by simp)

theorem mutex_user_thread_step_inv {n : Nat} {tds : Fin n → thread_data_t}
    {s s' : SysState n} (h : Inv n tds s)
    (hs : mutex_user_thread_step s = some s') : Inv n tds s' := by
  unfold mutex_user_thread_step at hs
  split at hs
  case _ =>
    split at hs
    -- acquire mutex1
    case _ hpc =>
      split at hs
      case _ hg =>
        obtain rfl := Option.some.inj hs
        refine { sum_eq := h.sum_eq, m1_iff := ?_, m2_iff := ?_
                 temp_eq := h.temp_eq
                 arr_eq := by
                   show s.array = arrAt AUserPc.asleep
                   rw [h.arr_eq, hpc]
                   rfl
                 pre_sum1 := h.pre_sum1, pre_fin := h.pre_fin
                 post_join := fun hc =>
                   absurd (h.post_join hc).2 (by rw [hpc]; simp)
                 fin := h.fin, zero_iter := h.zero_iter }
        · intro t
          constructor
          · intro ht
            obtain rfl := Option.some.inj ht
            show auHolds1 AUserPc.asleep
            trivial
          · intro ht
            cases t with
            | main => exact absurd ht (by simp [holds1])
            | auser => rfl
            | worker j =>
                have := (h.m1_iff (.worker j)).mpr ht
                rw [hg] at this
                exact Option.noConfusion this
        · intro t
          constructor
          · intro ht
            have := (h.m2_iff t).mp ht
            cases t <;> simp [holds2, auHolds2, hpc] at this ⊢
          · intro ht
            cases t <;> simp [holds2, auHolds2] at ht
      case _ => exact absurd hs (by simp)
    -- wake from usleep
    case _ hpc =>
      obtain rfl := Option.some.inj hs
      refine { sum_eq := h.sum_eq, m1_iff := ?_, m2_iff := ?_
               temp_eq := h.temp_eq, arr_eq := ?_
               pre_sum1 := h.pre_sum1, pre_fin := h.pre_fin
               post_join := fun hc =>
                 absurd (h.post_join hc).2 (by rw [hpc]; simp)
               fin := h.fin, zero_iter := h.zero_iter }
      · intro t
        cases t with
        | main => exact h.m1_iff .main
        | auser =>
            refine (h.m1_iff .auser).trans ?_
            rw [hpc]
            exact Iff.rfl
        | worker j => exact h.m1_iff (.worker j)
      · intro t
        cases t with
        | main => exact h.m2_iff .main
        | auser =>
            refine (h.m2_iff .auser).trans ?_
            rw [hpc]
            exact Iff.rfl
        | worker j => exact h.m2_iff (.worker j)
      · show s.array = arrAt AUserPc.waitB
        rw [h.arr_eq, hpc]
        rfl
    -- acquire mutex2
    case _ hpc =>
      split at hs
      case _ hg =>
        obtain rfl := Option.some.inj hs
        refine { sum_eq := h.sum_eq, m1_iff := ?_, m2_iff := ?_
                 temp_eq := h.temp_eq, arr_eq := ?_
                 pre_sum1 := h.pre_sum1, pre_fin := h.pre_fin
                 post_join := fun hc =>
                   absurd (h.post_join hc).2 (by rw [hpc]; simp)
                 fin := h.fin, zero_iter := h.zero_iter }
        · intro t
          cases t with
          | main => exact h.m1_iff .main
          | auser =>
              refine (h.m1_iff .auser).trans ?_
              rw [hpc]
              exact Iff.rfl
          | worker j => exact h.m1_iff (.worker j)
        · intro t
          constructor
          · intro ht
            obtain rfl := Option.some.inj ht
            show auHolds2 (AUserPc.writing 0)
            trivial
          · intro ht
            cases t with
            | main => exact absurd ht (by simp [holds2])
            | auser => rfl
            | worker j => exact absurd ht (by simp [holds2])
        · show s.array = arrAt (AUserPc.writing 0)
          rw [h.arr_eq, hpc]
          rfl
      case _ => exact absurd hs (by simp)
    -- the doubling loop of lines 59-61
    case _ j hpc =>
      split at hs
      case _ hlt =>
        obtain rfl := Option.some.inj hs
        refine { sum_eq := h.sum_eq, m1_iff := ?_, m2_iff := ?_
                 temp_eq := h.temp_eq, arr_eq := ?_
                 pre_sum1 := h.pre_sum1, pre_fin := h.pre_fin
                 post_join := fun hc =>
                   absurd (h.post_join hc).2 (by rw [hpc]; simp)
                 fin := h.fin, zero_iter := h.zero_iter }
        · intro t
          cases t with
          | main => exact h.m1_iff .main
          | auser =>
              refine (h.m1_iff .auser).trans ?_
              rw [hpc]
              exact Iff.rfl
          | worker i => exact h.m1_iff (.worker i)
        · intro t
          cases t with
          | main => exact h.m2_iff .main
          | auser =>
              refine (h.m2_iff .auser).trans ?_
              rw [hpc]
              exact Iff.rfl
          | worker i => exact h.m2_iff (.worker i)
        · show s.array.set j (s.array.getD j 0 * 2) = arrAt (AUserPc.writing (j+1))
          rw [h.arr_eq, hpc]
          show (dArr (min j 5)).set j ((dArr (min j 5)).getD j 0 * 2) =
              dArr (min (j+1) 5)
          rw [Nat.min_eq_left (Nat.le_of_lt hlt), Nat.min_eq_left hlt]
          exact dArr_write j hlt
      -- loop test fails: release mutex2
      case _ hlt =>
        obtain rfl := Option.some.inj hs
        refine { sum_eq := h.sum_eq, m1_iff := ?_, m2_iff := ?_
                 temp_eq := h.temp_eq, arr_eq := ?_
                 pre_sum1 := h.pre_sum1, pre_fin := h.pre_fin
                 post_join := fun hc =>
                   absurd (h.post_join hc).2 (by rw [hpc]; simp)
                 fin := h.fin, zero_iter := h.zero_iter }
        · intro t
          cases t with
          | main => exact h.m1_iff .main
          | auser =>
              refine (h.m1_iff .auser).trans ?_
              rw [hpc]
              exact Iff.rfl
          | worker i => exact h.m1_iff (.worker i)
        · intro t
          constructor
          · intro ht; exact Option.noConfusion ht
          · intro ht
            cases t <;> simp [holds2, auHolds2] at ht
        · show s.array = arrAt AUserPc.relA
          rw [h.arr_eq, hpc]
          show dArr (min j 5) = dArr 5
          rw [Nat.min_eq_right (Nat.le_of_not_lt hlt)]
    -- release mutex1 and return
    case _ hpc =>
      obtain rfl := Option.some.inj hs
      have hm1a : s.mutex1 = some .auser :=
        (h.m1_iff .auser).mpr (by rw [show holds1 s.wpc s.apc Tid.auser
          = auHolds1 s.apc from rfl, hpc]; trivial)
      refine { sum_eq := h.sum_eq, m1_iff := ?_, m2_iff := ?_
               temp_eq := h.temp_eq, arr_eq := ?_
               pre_sum1 := h.pre_sum1, pre_fin := h.pre_fin
               post_join := fun hc =>
                 absurd (h.post_join hc).2 (by rw [hpc]; simp)
               fin := h.fin, zero_iter := h.zero_iter }
      · intro t
        constructor
        · intro ht; exact Option.noConfusion ht
        · intro ht
          exfalso
          cases t with
          | main => simp [holds1] at ht
          | auser => simp [holds1, auHolds1] at ht
          | worker j =>
              have := (h.m1_iff (.worker j)).mpr ht
              rw [hm1a] at this
              exact Tid.noConfusion (Option.some.inj this)
      · intro t
        cases t with
        | main => exact h.m2_iff .main
        | auser =>
            refine (h.m2_iff .auser).trans ?_
            rw [hpc]
            exact Iff.rfl
        | worker j => exact h.m2_iff (.worker j)
      · show s.array = arrAt AUserPc.adone
        rw [h.arr_eq, hpc]
        rfl
    -- already returned
    case _ => exact absurd hs (by simp)
  case _ => exact absurd hs (by simp)

theorem inv_step {n : Nat} {tds : Fin n → thread_data_t} {s s' : SysState n}
    (h : Inv n tds s) (hst : Step s s') : Inv n tds s' := by
  obtain ⟨t, ht⟩ := hst
  cases t with
  | main => exact main_step_inv h ht
  | worker i => exact worker_thread_step_inv i h ht
  | auser => exact mutex_user_thread_step_inv h ht

/-- Every reachable state of the program satisfies the global invariant. -/
theorem inv_reach {n : Nat} {tds : Fin n → thread_data_t} {s : SysState n}
    (h : Reach n tds s) : Inv n tds s := by
  unfold Reach at h
  induction h with
  | refl => exact inv_init n tds
  | tail _ hstep ih => exact inv_step ih hstep

/-- A schedule of the compiled program that runs each thread to completion
after main has created all of them and computed the initial sum. -/
def progLabels : List (Tid 3) :=
  List.replicate 5 .main ++ List.replicate 21 (.worker 0) ++
    List.replicate 21 (.worker 1) ++ List.replicate 21 (.worker 2) ++
    List.replicate 10 .auser ++ [.main, .main]

/-- The final state of the `progLabels` schedule. -/
def progFinal : SysState 3 := (exec progLabels progInit).getD progInit

theorem progFinal_reach : Reach 3 progTds progFinal :=
  exec_sound (show exec progLabels progInit = some progFinal from rfl)

/-- A schedule in which the mutex-user thread runs to completion right
after being created, before main reaches its first `calculate_sum` call:
main then records an initial sum over the already-doubled array. -/
def raceLabels : List (Tid 3) :=
  List.replicate 4 .main ++ List.replicate 10 .auser ++ [.main] ++
    List.replicate 21 (.worker 0) ++ List.replicate 21 (.worker 1) ++
    List.replicate 21 (.worker 2) ++ [.main, .main]

/-- The final state of the `raceLabels` schedule. -/
def raceFinal : SysState 3 := (exec raceLabels progInit).getD progInit

theorem raceFinal_reach : Reach 3 progTds raceFinal :=
  exec_sound (show exec raceLabels progInit = some raceFinal from rfl)

/-- The state in which the mutex-user thread sits in its `usleep(10000)`
(line 53): main has created every thread and the mutex-user thread has
executed the `pthread_mutex_lock(&mutex1)` of line 51. -/
def sleepState : SysState 3 :=
  (exec (List.replicate 4 .main ++ [.auser]) progInit).getD progInit

theorem sleepState_reach : Reach 3 progTds sleepState :=
  exec_sound (show exec (List.replicate 4 .main ++ [.auser]) progInit =
    some sleepState from rfl)

/-- C1: for every configuration with `n` counter workers whose descriptors
all carry iteration count `K` (the program instantiates `n = 3`, `K = 5`),
and for every interleaving of the threads' steps, when main has joined all
workers and returned, the shared counter equals `n * K`: every increment
happens under mutex1, so no update is lost. -/
theorem final_counter_eq (n K : Nat) (tds : Fin n → thread_data_t)
    (hK : ∀ i, (tds i).iterations = K) (s : SysState n) (r : Int)
    (hs : Reach n tds s) (hf : s.mpc = .finished r) :
    s.counter = (n : Int) * K := by
  have hinv := inv_reach hs
  have hdone := (hinv.post_join (Or.inr ⟨r, hf⟩)).1
  have hrem : ∑ i, (remIncs (s.wpc i) : ℤ) = 0 :=
    Finset.sum_eq_zero (fun i _ => by rw [hdone i]; rfl)
  have h1 : s.counter = ∑ i, ((tds i).iterations.toNat : ℤ) := by
    have := hinv.sum_eq
    linarith
  have h2 : ∑ i, ((tds i).iterations.toNat : ℤ) = (n : Int) * K := by
    have hc : ∀ i ∈ Finset.univ, ((tds i).iterations.toNat : ℤ) = (K : ℤ) := by
      intro i _
      rw [hK i]
      simp
    rw [Finset.sum_congr rfl hc, Finset.sum_const, Finset.card_univ,
      Fintype.card_fin]
    ring
  rw [h1, h2]

/-- The thread descriptors of a one-worker, one-iteration configuration. -/
def oneTds : Fin 1 → thread_data_t := fun _ => ⟨1, 1⟩

/-- A complete schedule of the one-worker, one-iteration configuration. -/
def oneLabels : List (Tid 1) :=
  [.main, .main, .main] ++ List.replicate 5 (.worker 0) ++
    List.replicate 10 .auser ++ [.main, .main]

/-- The final state of the `oneLabels` schedule. -/
def oneFinal : SysState 1 := (exec oneLabels (initState 1 oneTds)).getD
  (initState 1 oneTds)

/-- Witness for C1 at the concrete configuration n = 1, K = 1. -/
theorem final_counter_eq_witness : oneFinal.counter = (1 : Int) * 1 :=
  final_counter_eq 1 1 oneTds (fun _ => rfl) oneFinal 0
    (exec_sound (show exec oneLabels (initState 1 oneTds) = some oneFinal
      from rfl)) rfl

/-- C2 (counterexample): a reachable complete execution of the program in
which the recorded initial sum is 70, though the sum of the array before
any worker is launched is 55.  The first `calculate_sum` call site (line
97) runs only after the `pthread_create` calls (lines 85-94), so the
mutex-user thread can double the array before the initial sum is taken:
the first call is not outside the concurrent region. -/
theorem initial_sum_race_cex :
    Reach 3 progTds raceFinal ∧ raceFinal.mpc = MainPc.finished 0 ∧
      raceFinal.initialSum = some 70 ∧ calculate_sum initArray 10 = 55 :=
  ⟨raceFinal_reach, rfl, rfl, rfl⟩

/-- C2 (amended): the first reduction call occurs only after all workers
and the mutex-user thread have been launched (so it can race with the
array mutation), and the second only after every thread has finished. -/
theorem sum_calls_placement (n : Nat) (tds : Fin n → thread_data_t)
    (s : SysState n) (hs : Reach n tds s) :
    (s.initialSum ≠ none →
      (∀ j, s.mpc ≠ .create j) ∧ s.mpc ≠ .computeSum1) ∧
    (s.finalSum ≠ none → (∀ i, s.wpc i = .done) ∧ s.apc = .adone) := by
  have hinv := inv_reach hs
  constructor
  · intro hne
    constructor
    · intro j hj
      exact hne (hinv.pre_sum1 (Or.inl ⟨j, hj⟩))
    · intro hj
      exact hne (hinv.pre_sum1 (Or.inr hj))
  · intro hne
    by_cases hf : ∀ r, s.mpc ≠ .finished r
    · exact absurd (hinv.pre_fin hf).2 hne
    · push_neg at hf
      obtain ⟨r, hr⟩ := hf
      exact hinv.post_join (Or.inr ⟨r, hr⟩)

/-- Witness for the amended C2 at the completed program run. -/
theorem sum_calls_placement_witness :
    (progFinal.initialSum ≠ none →
      (∀ j, progFinal.mpc ≠ .create j) ∧ progFinal.mpc ≠ .computeSum1) ∧
    (progFinal.finalSum ≠ none →
      (∀ i, progFinal.wpc i = .done) ∧ progFinal.apc = .adone) :=
  sum_calls_placement 3 progTds progFinal progFinal_reach

/-- C3 (counterexample): a reachable state in which the mutex-user thread
sits in its artificial delay (the `usleep(10000)` of line 53) while
holding mutex1 — the lock was acquired at line 51, before the delay. -/
theorem auser_delay_holds_mutex1_cex :
    Reach 3 progTds sleepState ∧ sleepState.apc = AUserPc.asleep ∧
      sleepState.mutex1 = some Tid.auser :=
  ⟨sleepState_reach, rfl, rfl⟩

/-- C3 (amended): whenever the mutex-user thread is inside its delay, it
holds mutex1 but not mutex2, and the delay happens before any array
mutation (the array still has its initial contents). -/
theorem auser_delay_lock_state (n : Nat) (tds : Fin n → thread_data_t)
    (s : SysState n) (hs : Reach n tds s) (ha : s.apc = .asleep) :
    s.mutex1 = some .auser ∧ s.mutex2 ≠ some .auser ∧ s.array = initArray := by
  have hinv := inv_reach hs
  refine ⟨?_, ?_, ?_⟩
  · exact (hinv.m1_iff .auser).mpr (by
      rw [show holds1 s.wpc s.apc Tid.auser = auHolds1 s.apc from rfl, ha]
      trivial)
  · intro hm
    have := (hinv.m2_iff .auser).mp hm
    rw [show holds2 s.apc Tid.auser = auHolds2 s.apc from rfl, ha] at this
    exact this
  · rw [hinv.arr_eq, ha]
    rfl

/-- Witness for the amended C3 at the concrete sleeping state. -/
theorem auser_delay_lock_state_witness :
    sleepState.mutex1 = some Tid.auser ∧
      sleepState.mutex2 ≠ some Tid.auser ∧ sleepState.array = initArray :=
  auser_delay_lock_state 3 progTds sleepState sleepState_reach rfl

/-- C4: in every reachable state, elements 5-9 of the shared array are the
untouched initial values (no operation of the program ever writes them),
and once the mutex-user thread has completed, elements 0-4 are exactly the
doubled initial values. -/
theorem array_frame (n : Nat) (tds : Fin n → thread_data_t)
    (s : SysState n) (hs : Reach n tds s) :
    s.array.drop 5 = [6, 7, 8, 9, 10] ∧
      (s.apc = .adone → s.array = [2, 4, 6, 8, 10, 6, 7, 8, 9, 10]) := by
  have hinv := inv_reach hs
  constructor
  · rw [hinv.arr_eq]
    cases s.apc with
    | writing i => exact dArr_drop _ (Nat.min_le_right i 5)
    | start => exact dArr_drop 0 (by omega)
    | asleep => exact dArr_drop 0 (by omega)
    | waitB => exact dArr_drop 0 (by omega)
    | relA => exact dArr_drop 5 (by omega)
    | adone => exact dArr_drop 5 (by omega)
  · intro ha
    rw [hinv.arr_eq, ha]
    rfl

/-- Witness for C4 at the completed program run. -/
theorem array_frame_witness :
    progFinal.array.drop 5 = [6, 7, 8, 9, 10] ∧
      (progFinal.apc = .adone →
        progFinal.array = [2, 4, 6, 8, 10, 6, 7, 8, 9, 10]) :=
  array_frame 3 progTds progFinal progFinal_reach

/-- C5 (counterexample): an execution of the program whose recorded
initial sum is 70, not 55: the initial sum is not 55 in every execution,
because the first `calculate_sum` races with the mutex-user thread. -/
theorem initial_sum_not_always_55_cex :
    Reach 3 progTds raceFinal ∧ raceFinal.mpc = MainPc.finished 0 ∧
      raceFinal.initialSum ≠ some 55 ∧ raceFinal.initialSum = some 70 :=
  ⟨raceFinal_reach, rfl, by decide, rfl⟩

/-- C5 (amended): in every completed execution of the program the reported
final counter is 15 and the reported final sum is 70; only the reported
initial sum depends on the scheduling. -/
theorem reported_finals (s : SysState 3) (r : Int)
    (hs : Reach 3 progTds s) (hf : s.mpc = .finished r) :
    s.finalCounterOut = some 15 ∧ s.finalSum = some 70 := by
  have hinv := inv_reach hs
  obtain ⟨-, h1, h2⟩ := hinv.fin r hf
  refine ⟨?_, h2⟩
  rw [h1]
  decide

/-- Witness for the amended C5 at the completed program run. -/
theorem reported_finals_witness :
    progFinal.finalCounterOut = some 15 ∧ progFinal.finalSum = some 70 :=
  reported_finals progFinal 0 progFinal_reach rfl

/-- C6: `calculate_sum` is pure and order-independent: two integer arrays
of the same length holding the same multiset of values (a permutation of
one another) have the same sum. -/
theorem calculate_sum_perm_invariant (a b : List Int)
    (hlen : a.length = b.length) (hperm : a.Perm b) :
    calculate_sum a a.length = calculate_sum b b.length := by
  unfold calculate_sum
  rw [Int.toNat_natCast, Int.toNat_natCast, List.take_length,
    List.take_length]
  exact hperm.sum_eq

/-- Witness for C6 on a concrete permutation. -/
theorem calculate_sum_perm_invariant_witness :
    calculate_sum [1, 2, 3] (([1, 2, 3] : List Int).length) =
      calculate_sum [3, 1, 2] (([3, 1, 2] : List Int).length) :=
  calculate_sum_perm_invariant [1, 2, 3] [3, 1, 2] rfl (by decide)

/-- C7: in every configuration and every execution, when main finishes it
returns 0 (line 111); there is no failure return path. -/
theorem main_returns_zero (n : Nat) (tds : Fin n → thread_data_t)
    (s : SysState n) (r : Int) (hs : Reach n tds s)
    (hf : s.mpc = .finished r) : r = 0 :=
  ((inv_reach hs).fin r hf).1

/-- Witness for C7 at the completed program run. -/
theorem main_returns_zero_witness : (0 : Int) = 0 :=
  main_returns_zero 3 progTds progFinal 0 progFinal_reach rfl

/-- C8: the program ignores its command-line arguments: `main`'s body
never reads `argc` or `argv`, so any two argument vectors start the very
same system (hence the same reachable states, outputs and return value). -/
theorem main_ignores_args (argc argc' : Int) (argv argv' : List String) :
    main argc argv = main argc' argv' := rfl

/-- C9: `calculate_sum` on a nonpositive size returns 0: the loop of line
71 never executes its body and no array element is read. -/
theorem calculate_sum_nonpos (arr : List Int) (size : Int)
    (h : size ≤ 0) : calculate_sum arr size = 0 := by
  unfold calculate_sum
  rw [Int.toNat_of_nonpos h]
  rfl

/-- Witness for C9 at a concrete negative size. -/
theorem calculate_sum_nonpos_witness : calculate_sum [5, 6] (-3) = 0 :=
  calculate_sum_nonpos [5, 6] (-3) (by decide)

/-- C10: a worker whose descriptor carries a nonpositive iteration count
performs no increment and leaves all shared state unchanged — any step it
takes from a reachable state preserves the counter, the array and both
mutexes, and moves it straight to its NULL return. -/
theorem worker_nonpos_iterations_noop (n : Nat)
    (tds : Fin n → thread_data_t) (i : Fin n) (s s' : SysState n)
    (hs : Reach n tds s) (hz : (tds i).iterations ≤ 0)
    (hstep : worker_thread_step i s = some s') :
    s'.counter = s.counter ∧ s'.array = s.array ∧
      s'.mutex1 = s.mutex1 ∧ s'.mutex2 = s.mutex2 ∧ s'.wpc i = .done := by
  have hinv := inv_reach hs
  unfold worker_thread_step at hstep
  split at hstep
  case _ =>
    split at hstep
    case _ hw =>
      obtain rfl := Option.some.inj hstep
      refine ⟨rfl, rfl, rfl, rfl, ?_⟩
      dsimp only
      rw [Function.update_same]
    case _ k hw =>
      rcases hinv.zero_iter i hz with h0 | h0 <;> rw [h0] at hw <;>
        exact absurd hw (by simp)
    case _ k hw =>
      rcases hinv.zero_iter i hz with h0 | h0 <;> rw [h0] at hw <;>
        exact absurd hw (by simp)
    case _ k t0 hw =>
      rcases hinv.zero_iter i hz with h0 | h0 <;> rw [h0] at hw <;>
        exact absurd hw (by simp)
    case _ k hw =>
      rcases hinv.zero_iter i hz with h0 | h0 <;> rw [h0] at hw <;>
        exact absurd hw (by simp)
    case _ hw => exact absurd hstep (by simp)
  case _ => exact absurd hstep (by simp)

/-- The descriptors of a configuration whose single worker has iteration
count 0. -/
def zTds : Fin 1 → thread_data_t := fun _ => ⟨1, 0⟩

/-- The state after main's first step in that configuration: the worker
exists and is at its loop test. -/
def zState : SysState 1 :=
  (exec [Tid.main] (initState 1 zTds)).getD (initState 1 zTds)

theorem zState_reach : Reach 1 zTds zState :=
  exec_sound (show exec [Tid.main] (initState 1 zTds) = some zState from rfl)

/-- The state after the zero-iteration worker takes its only step. -/
def zState2 : SysState 1 := (worker_thread_step 0 zState).getD zState

/-- Witness for C10 at the zero-iteration configuration. -/
theorem worker_nonpos_iterations_noop_witness :
    zState2.counter = zState.counter ∧ zState2.array = zState.array ∧
      zState2.mutex1 = zState.mutex1 ∧ zState2.mutex2 = zState.mutex2 ∧
      zState2.wpc 0 = .done :=
  worker_nonpos_iterations_noop 1 zTds 0 zState zState2 zState_reach
    (by decide) rfl

end SampleProgram
